import Mathlib

/-!
Verification development for the mmspd explorer uploader
(`openrank/mmspd/exploreruploader/cmd/run.py`).

The development is a shallow embedding of the run loop in `run.py`.
External collaborators (the filesystem, `json.load`, `datetime.strptime`,
the S3 client) are resolved at their interface boundary: a directory entry
carries the outcome of loading and parsing its manifest, an archive carries
the tree of files that `extractall` would materialize, and an upload job
carries the success/failure outcome of `bucket.upload_file`.  Everything
downstream of those boundaries - the branch ladder of the scanner, the
dedup and epoch indices, the publish phase, the worker loop - is translated
directly from the source.

Python `dict`s are modelled as association lists in insertion order,
Python `set`s as duplicate-free lists, `datetime` values as integers
(ordered absolute time), and `round(dt.timestamp() * 1000)` of a parsed
`issuanceDate` is carried as the already-rounded integer millisecond value.
-/

/-- Outcome of `parse_timestamp(manifest[field])` for a date field of a
manifest, at the collaborator boundary: the field may be absent from the
JSON object (`KeyError`, silently skipped by the scanner), present but
unparseable by both `strptime` formats (`ValueError`, logged and skipped),
or parsed to an absolute time carried as an integer. For `issuanceDate`
the integer carried is `round(parsed.timestamp() * 1000)`, the value the
scanner's assertion compares against the filename stem. -/
inductive DateField where
  | missing
  | malformed
  | ok (t : Int)
deriving DecidableEq, Repr

/-- Outcome of reading `manifest['scope']`: absent (`KeyError`), present
but not a string (rejected by the `isinstance` check), or a string. -/
inductive ScopeField where
  | missing
  | nonString
  | ok (s : String)
deriving DecidableEq, Repr

/-- A successfully JSON-decoded manifest, as the scanner consumes it.
`doc` is an opaque identity for the full JSON document, which is stored
in the dedup index and passed through to `list.json` unmodified. -/
structure ManifestData where
  epoch : DateField
  issuanceDate : DateField
  scope : ScopeField
  doc : Nat
deriving DecidableEq, Repr

/-- A node of the file tree that `ZipFile.extractall` materializes under
the extraction root `tmpdir/scope/stem`. -/
inductive FsTree where
  | file (name : String)
  | dir (name : String) (children : List FsTree)

/-- A single entry of a scanned directory, with its collaborator outcomes:
`stem`/`suffix` split the filename as `pathlib` does, `load` is the result
of `path.open` plus `json.load` (`none` models `OSError` or
`JSONDecodeError`), and `zip` is the content of the companion
`{stem}.zip` archive (`none` models the archive being absent, i.e.
`FileNotFoundError` from `zipfile.ZipFile`). -/
structure Entry where
  stem : String
  suffix : String
  load : Option ManifestData
  zip : Option (List FsTree)

/-- Decimal digit value of a character, as `int()` consumes it. -/
def digitVal? (c : Char) : Option Nat :=
  if c.isDigit then some (c.toNat - 48) else none

/-- Parses a string of decimal digits; `none` if empty or non-digit. -/
def decDigits? (cs : List Char) : Option Nat :=
  match cs with
  | [] => none
  | _ =>
    cs.foldl (fun acc c =>
      match acc, digitVal? c with
      | some n, some d => some (n * 10 + d)
      | _, _ => none) (some 0)

/-- Python `int(s)` on a filename stem (`ValueError` gives `none`).
Leading whitespace, a leading plus sign and digit-group underscores,
which Python also tolerates, do not occur in the stems in scope and are
not modelled. -/
def int? (s : String) : Option Int :=
  match s.data with
  | '-' :: rest => (decDigits? rest).map (fun n => -(n : Int))
  | cs => (decDigits? cs).map (fun n => (n : Int))

/-- Lookup in a Python dict modelled as an association list. -/
def alookup [DecidableEq α] (k : α) : List (α × β) → Option β
  | [] => none
  | (k', v) :: rest => if k = k' then some v else alookup k rest

/-- Python dict assignment `d[k] = v`: replaces the value of an existing
key in place, otherwise appends the new binding (insertion order). -/
def dictInsert [DecidableEq α] (k : α) (v : β) : List (α × β) → List (α × β)
  | [] => [(k, v)]
  | (k', v') :: rest =>
    if k = k' then (k, v) :: rest else (k', v') :: dictInsert k v rest

/-- Python `d.setdefault(k, dflt)` followed by an in-place modification
`f` of the value stored at `k`. -/
def dictUpdate [DecidableEq α] (k : α) (dflt : β) (f : β → β) :
    List (α × β) → List (α × β)
  | [] => [(k, f dflt)]
  | (k', v') :: rest =>
    if k = k' then (k', f v') :: rest else (k', v') :: dictUpdate k dflt f rest

/-- Python `s.add(x)` on a set modelled as a duplicate-free list. -/
def setInsert (x : Int) (s : List Int) : List Int :=
  if x ∈ s then s else s ++ [x]

/-- Python set union `x | y` on sets modelled as duplicate-free lists. -/
def setUnion (a b : List Int) : List Int :=
  a ++ b.filter (fun x => decide (x ∉ a))

/-- Python `functools.reduce(lambda x, y: x | y, ls)`: `none` models the
`TypeError` that `reduce` raises on an empty sequence. -/
def redUnion : List (List Int) → Option (List Int)
  | [] => none
  | x :: rest => some (rest.foldl setUnion x)

/-- Python `max(d.keys())` over the epoch index: `none` models the
`ValueError` raised on an empty dict. -/
def maxKey : List (Int × α) → Option Int
  | [] => none
  | (k, _) :: rest =>
    some (match maxKey rest with
          | none => k
          | some m => max k m)

/-- The dedup index `manifest_by_scope_ts : scope -> ts -> manifest`. -/
abbrev MIdx := List (String × List (Int × ManifestData))

/-- The epoch index `timestamps_by_epoch_scope : epoch -> scope -> set ts`. -/
abbrev EIdx := List (Int × List (String × List Int))

/-- Two-level lookup `manifest_by_scope_ts[scope][ts]`; `none` models the
`KeyError` that the dedup check catches. -/
def lookup2 (m : MIdx) (s : String) (t : Int) : Option ManifestData :=
  match alookup s m with
  | none => none
  | some inner => alookup t inner

/-- The mutable state that the scan loop threads: the two indices plus the
sequence of `(local path, destination key)` jobs put on the upload queue. -/
structure ScanState where
  mIdx : MIdx
  eIdx : EIdx
  jobs : List (String × String)
deriving DecidableEq, Repr

/-- The exceptions of the scan loop that are not caught by any handler in
`run` and therefore propagate out of the directory walk:
`FileNotFoundError` from opening the absent companion archive, the
`AssertionError` of the millisecond-rounding assert, and the (unreachable
for states built by the scanner) `KeyError` of the publish phase. -/
inductive ScanError where
  | missingZip (stem : String)
  | assertFailed (stem : String)
  | publishKeyError
deriving DecidableEq, Repr

/-- The decision the scanner takes for one directory entry before any
shared state is consulted, following the source's branch ladder in order:
suffix match, `int(path.stem)`, manifest load, `epoch` /`issuanceDate`
parse (`KeyError` silent, `ValueError` logged), `scope` extraction and
string check, then the rounding assert.  All continue-branches collapse
to `skip`; a candidate carries the filename timestamp, scope, epoch and
manifest. -/
inductive EntryAction where
  | skip
  | assertFail
  | candidate (ts0 : Int) (scope : String) (epochV : Int) (m : ManifestData)
deriving DecidableEq, Repr

/-- State-free part of the scanner's per-entry branch ladder. -/
def classifyEntry (e : Entry) : EntryAction :=
  if e.suffix ≠ ".json" then .skip else
  match int? e.stem with
  | none => .skip
  | some ts0 =>
    match e.load with
    | none => .skip
    | some m =>
      match m.epoch with
      | .missing => .skip
      | .malformed => .skip
      | .ok epochV =>
        match m.issuanceDate with
        | .missing => .skip
        | .malformed => .skip
        | .ok issMs =>
          match m.scope with
          | .missing => .skip
          | .nonString => .skip
          | .ok scope =>
            if issMs = ts0 then .candidate ts0 scope epochV m else .assertFail

/-- Names of the direct children of the extraction root that are regular
files: the `path2.is_file()` filter over `zipdir.iterdir()`.  Note that
this is not recursive - entries of nested subdirectories are never
visited by the source. -/
def topFileNames (ts : List FsTree) : List String :=
  ts.filterMap (fun t =>
    match t with
    | .file n => some n
    | .dir _ _ => none)

/-- The two upload jobs the source enqueues per direct-child regular file
of the extraction root: the primary key
`files/{scope}/{ts0}/{relpath}` and the backward-compatibility key
`files/{ts0}/{relpath}`. -/
def bundleJobs (tmpdir scope stem : String) (ts0 : Int) (tree : List FsTree) :
    List (String × String) :=
  (topFileNames tree).flatMap (fun n =>
    [(tmpdir ++ "/" ++ scope ++ "/" ++ stem ++ "/" ++ n,
      "files/" ++ scope ++ "/" ++ toString ts0 ++ "/" ++ n),
     (tmpdir ++ "/" ++ scope ++ "/" ++ stem ++ "/" ++ n,
      "files/" ++ toString ts0 ++ "/" ++ n)])

/-- Effect of accepting a new bundle: enqueue its per-file jobs, then
record the manifest in the dedup index
(`manifest_by_scope_ts.setdefault(scope, {})[ts0] = manifest`) and the
timestamp in the epoch index
(`timestamps_by_epoch_scope.setdefault(epoch, {}).setdefault(scope,
set()).add(ts0)`). -/
def acceptBundle (tmpdir : String) (st : ScanState) (stem : String)
    (ts0 : Int) (scope : String) (epochV : Int) (m : ManifestData)
    (tree : List FsTree) : ScanState :=
  { mIdx := dictUpdate scope [] (dictInsert ts0 m) st.mIdx
    eIdx := dictUpdate epochV [] (dictUpdate scope [] (setInsert ts0)) st.eIdx
    jobs := st.jobs ++ bundleJobs tmpdir scope stem ts0 tree }

/-- Processing of one directory entry by the scan loop.  After the
state-free ladder: the dedup probe
`manifest_by_scope_ts[scope][ts0]` (hit means the entry was already
processed in an earlier cycle and is skipped), then the companion archive
is opened - its absence raises `FileNotFoundError`, which no handler in
`run` catches - and on success the bundle is accepted. -/
def processEntry (tmpdir : String) (st : ScanState) (e : Entry) :
    ScanState × Option ScanError :=
  match classifyEntry e with
  | .skip => (st, none)
  | .assertFail => (st, some (.assertFailed e.stem))
  | .candidate ts0 scope epochV m =>
    match lookup2 st.mIdx scope ts0 with
    | some _ => (st, none)
    | none =>
      match e.zip with
      | none => (st, some (.missingZip e.stem))
      | some tree => (acceptBundle tmpdir st e.stem ts0 scope epochV m tree, none)

/-- The directory walk of one cycle over the concatenated entry lists of
all configured directories.  An uncaught exception aborts the walk:
entries after it are not reached, and the state accumulated up to the
failing entry is returned alongside the error. -/
def scanEntries (tmpdir : String) (st : ScanState) :
    List Entry → ScanState × Option ScanError
  | [] => (st, none)
  | e :: rest =>
    match processEntry tmpdir st e with
    | (st', none) => scanEntries tmpdir st' rest
    | (st', some err) => (st', some err)

/-- Items put on the per-cycle upload queue, keeping the payload of the
two generated documents visible: plain extracted-file jobs, the
`timestamps.json` document, the `list.json` document, the indexer-score
cache file, and the shutdown sentinel (`None`). -/
inductive CItem where
  | file (path key : String)
  | tsDoc (content : List String) (key : String)
  | listDoc (content : List (String × ManifestData)) (key : String)
  | cache (path key : String)
  | sentinel
deriving DecidableEq, Repr

/-- Destination key of the generated `timestamps.json` document. -/
def apiTimestampsKey : String := "api/scores/timestamps.json"

/-- Destination key of the generated `list.json` document. -/
def apiListKey : String := "api/scores/list.json"

/-- Destination key of the indexer-score cache artifact. -/
def apiIndexerScoresKey : String := "api/scores/indexer-scores"

/-- The fixed inter-cycle sleep interval, `await asyncio.sleep(10)`. -/
def sleepSeconds : Nat := 10

/-- Inner loop of the `list.json` build: `for ts in timestamps`, look the
manifest up in the dedup index (`KeyError` gives `none`, modelling a
crash) and assign `list_[str(ts)] = manifest`, overwriting any earlier
binding of the same string key. -/
def buildListTs (mIdx : MIdx) (scope : String)
    (acc : List (String × ManifestData)) :
    List Int → Option (List (String × ManifestData))
  | [] => some acc
  | ts :: rest =>
    match lookup2 mIdx scope ts with
    | none => none
    | some m => buildListTs mIdx scope (dictInsert (toString ts) m acc) rest

/-- Outer loop of the `list.json` build: over the scopes recorded under
the maximum epoch, in dict insertion order. -/
def buildList (mIdx : MIdx) (acc : List (String × ManifestData)) :
    List (String × List Int) → Option (List (String × ManifestData))
  | [] => some acc
  | (scope, tss) :: rest =>
    match buildListTs mIdx scope acc tss with
    | none => none
    | some acc2 => buildList mIdx acc2 rest

/-- The publish phase of a cycle, entered after a successful directory
walk.  `max(timestamps_by_epoch_scope.keys())` raising `ValueError` on an
empty index is the `continue` branch: it skips publishing and - because
`continue` jumps past the `await asyncio.sleep(10)` at the end of the
loop body - also the sleep.  Otherwise the sorted union of timestamps
under the maximum epoch is serialized to `timestamps.json`, the
string-keyed manifest map to `list.json`, and the indexer cache file is
enqueued; then the cycle sleeps.  Returns the enqueued publish items, the
performed sleep (if any), and the propagating error (if any). -/
def publishPhase (cachePath : String) (st : ScanState) :
    List CItem × Option Nat × Option ScanError :=
  match maxKey st.eIdx with
  | none => ([], none, none)
  | some maxE =>
    match alookup maxE st.eIdx with
    | none => ([], none, some .publishKeyError)
    | some scopes =>
      match redUnion (scopes.map Prod.snd) with
      | none => ([], none, some .publishKeyError)
      | some u =>
        let tsDoc := (List.insertionSort (fun a b => a ≤ b) u).map toString
        match buildList st.mIdx [] scopes with
        | none => ([CItem.tsDoc tsDoc apiTimestampsKey], none, some .publishKeyError)
        | some l =>
          ([CItem.tsDoc tsDoc apiTimestampsKey,
            CItem.listDoc l apiListKey,
            CItem.cache cachePath apiIndexerScoresKey],
           some sleepSeconds, none)

/-- Result of one iteration of the `while True` loop of `run`: the two
indices as left for the next cycle, everything put on the upload queue
in order, the sleep performed at the end of the iteration (`none` when
the `continue` branch or a propagating exception skipped it), and the
propagating exception if any. -/
structure CycleResult where
  mIdx : MIdx
  eIdx : EIdx
  queue : List CItem
  sleep : Option Nat
  err : Option ScanError
deriving DecidableEq, Repr

/-- One iteration of the run loop: fresh queue, directory walk, publish
phase, and - on every path, via the `finally` block - the sentinel
enqueue that initiates worker shutdown.  An exception of the walk or the
publish phase propagates after the `finally` cleanup and skips the
sleep. -/
def runCycle (tmpdir cachePath : String) (mIdx : MIdx) (eIdx : EIdx)
    (entries : List Entry) : CycleResult :=
  let p := scanEntries tmpdir ⟨mIdx, eIdx, []⟩ entries
  let fileItems := p.1.jobs.map (fun j => CItem.file j.1 j.2)
  match p.2 with
  | some e => ⟨p.1.mIdx, p.1.eIdx, fileItems ++ [CItem.sentinel], none, some e⟩
  | none =>
    let q := publishPhase cachePath p.1
    ⟨p.1.mIdx, p.1.eIdx, fileItems ++ q.1 ++ [CItem.sentinel], q.2.1, q.2.2⟩

/-- Modelled from the spec: the set of relative paths of regular files in
the full extracted tree, recursively including nested subdirectories.
The spec's Bundle Unpacker section quantifies over this set; the source's
`zipdir.iterdir()` visits only the direct children, so this definition
exists to compare the spec's quantification domain with the source's. -/
def allFilesList : List FsTree → List String
  | [] => []
  | .file n :: ts => n :: allFilesList ts
  | .dir n cs :: ts =>
    (allFilesList cs).map (fun p => n ++ "/" ++ p) ++ allFilesList ts

/-- Items of the worker-side job queue, carrying the collaborator outcome
of `bucket.upload_file` for real jobs: the sentinel `None`, or a
`(path, key)` job with the success/failure of its transfer. -/
inductive QItem where
  | sentinel
  | job (path key : String) (succeeds : Bool)
deriving DecidableEq, Repr

/-- The structured log records the worker emits per job. -/
inductive LogRec where
  | uploaded (worker path key bucket : String)
  | uploadFailed (worker path key bucket : String)
deriving DecidableEq, Repr

/-- The bound logger name `f'uploader-{worker_index}'`. -/
def workerName (i : Nat) : String := "uploader-" ++ toString i

/-- The worker loop `upload_to_s3` over the queue contents it will
observe, in order.  On the sentinel: re-enqueue it and return.  On a real
job: attempt the transfer (lazy connection setup folded into the job's
outcome), log `uploaded` on success and `upload failed` with path, key
and bucket on any exception, then continue with the next item.  `none`
models the worker blocking forever on `queue.get()` because no sentinel
ever arrives.  On termination it returns the emitted log records and the
queue contents left for sibling workers. -/
def upload_to_s3 (bucket : String) (workerIndex : Nat) :
    List QItem → Option (List LogRec × List QItem)
  | [] => none
  | .sentinel :: rest => some ([], rest ++ [QItem.sentinel])
  | .job p k ok :: rest =>
    (upload_to_s3 bucket workerIndex rest).map
      (fun r =>
        ((if ok then LogRec.uploaded (workerName workerIndex) p k bucket
          else LogRec.uploadFailed (workerName workerIndex) p k bucket) :: r.1,
         r.2))

/-- Well-formedness of the epoch index: every per-scope timestamp set is
duplicate-free, as Python sets are. -/
def EIdxWF (eIdx : EIdx) : Prop :=
  ∀ p ∈ eIdx, ∀ q ∈ p.2, List.Nodup q.2

/-- The dedup-index half of the rounding invariant: every manifest stored
under `(scope, ts)` has `round(issuanceDate.timestamp() * 1000) = ts`. -/
def MInv (mIdx : MIdx) : Prop :=
  ∀ p ∈ mIdx, ∀ q ∈ p.2, q.2.issuanceDate = DateField.ok q.1

/-- The epoch-index half of the rounding invariant: every `(epoch, scope,
ts)` triple recorded in the epoch index has a manifest in the dedup index
satisfying the rounding invariant for `ts`. -/
def EInv (mIdx : MIdx) (eIdx : EIdx) : Prop :=
  ∀ p ∈ eIdx, ∀ q ∈ p.2, ∀ t ∈ q.2,
    Option.map ManifestData.issuanceDate (lookup2 mIdx q.1 t) =
      some (DateField.ok t)

/-- Conjunction of the two index invariants of claim C7. -/
def IdxInv (st : ScanState) : Prop :=
  MInv st.mIdx ∧ EInv st.mIdx st.eIdx

/-- Index growth: every `(scope, ts)` binding of the dedup index survives
with the same manifest. -/
def ScanExtends (a b : ScanState) : Prop :=
  ∀ s t m, lookup2 a.mIdx s t = some m → lookup2 b.mIdx s t = some m

section DictLemmas

variable {α : Type} {β : Type} [DecidableEq α]

theorem alookup_dictInsert_self (k : α) (v : β) (l : List (α × β)) :
    alookup k (dictInsert k v l) = some v := by
  induction l with
  | nil => simp [dictInsert, alookup]
  | cons p rest ih =>
    obtain ⟨k', v'⟩ := p
    by_cases h : k = k'
    · simp [dictInsert, h, alookup]
    · simp [dictInsert, h, alookup, ih]

theorem alookup_dictInsert_ne (k k' : α) (v : β) (l : List (α × β))
    (h : k' ≠ k) : alookup k' (dictInsert k v l) = alookup k' l := by
  induction l with
  | nil => simp [dictInsert, alookup, h]
  | cons p rest ih =>
    obtain ⟨ka, va⟩ := p
    by_cases hk : k = ka
    · subst hk
      simp [dictInsert, alookup, h]
    · by_cases hk' : k' = ka
      · simp [dictInsert, alookup, hk, hk']
      · simp [dictInsert, alookup, hk, hk', ih]

theorem alookup_dictUpdate_self (k : α) (d : β) (f : β → β) (l : List (α × β)) :
    alookup k (dictUpdate k d f l) = some (f ((alookup k l).getD d)) := by
  induction l with
  | nil => simp [dictUpdate, alookup]
  | cons p rest ih =>
    obtain ⟨k', v'⟩ := p
    by_cases h : k = k'
    · simp [dictUpdate, h, alookup]
    · simp [dictUpdate, h, alookup, ih]

theorem alookup_dictUpdate_ne (k k' : α) (d : β) (f : β → β)
    (l : List (α × β)) (h : k' ≠ k) :
    alookup k' (dictUpdate k d f l) = alookup k' l := by
  induction l with
  | nil => simp [dictUpdate, alookup, h]
  | cons p rest ih =>
    obtain ⟨ka, va⟩ := p
    by_cases hk : k = ka
    · subst hk
      simp [dictUpdate, alookup, h]
    · by_cases hk' : k' = ka
      · simp [dictUpdate, alookup, hk, hk']
      · simp [dictUpdate, alookup, hk, hk', ih]

theorem alookup_mem {k : α} {v : β} {l : List (α × β)}
    (h : alookup k l = some v) : (k, v) ∈ l := by
  induction l with
  | nil => simp [alookup] at h
  | cons p rest ih =>
    obtain ⟨k', v'⟩ := p
    by_cases hk : k = k'
    · subst hk
      simp [alookup] at h
      simp [h]
    · simp [alookup, hk] at h
      exact List.mem_cons_of_mem _ (ih h)

theorem alookup_isSome_of_mem_keys {k : α} {l : List (α × β)}
    (h : k ∈ l.map Prod.fst) : ∃ v, alookup k l = some v := by
  induction l with
  | nil => simp at h
  | cons p rest ih =>
    obtain ⟨k', v'⟩ := p
    by_cases hk : k = k'
    · exact ⟨v', by simp [alookup, hk]⟩
    · rw [List.map_cons, List.mem_cons] at h
      rcases h with h | h
      · exact absurd h hk
      · obtain ⟨v, hv⟩ := ih h
        exact ⟨v, by simp [alookup, hk, hv]⟩

theorem dictUpdate_forall {P : α × β → Prop} {k : α} {d : β} {f : β → β}
    {l : List (α × β)} (h : ∀ p ∈ l, P p)
    (hk : P (k, f ((alookup k l).getD d))) :
    ∀ p ∈ dictUpdate k d f l, P p := by
  induction l with
  | nil =>
    simp [dictUpdate]
    simpa [alookup] using hk
  | cons p rest ih =>
    obtain ⟨k', v'⟩ := p
    by_cases hke : k = k'
    · subst hke
      simp only [dictUpdate, if_pos rfl]
      intro q hq
      rcases List.mem_cons.mp hq with rfl | hq'
      · simpa [alookup] using hk
      · exact h _ (List.mem_cons_of_mem _ hq')
    · simp only [dictUpdate, if_neg hke]
      intro q hq
      rcases List.mem_cons.mp hq with rfl | hq'
      · exact h _ (List.mem_cons_self _ _)
      · refine ih (fun r hr => h _ (List.mem_cons_of_mem _ hr)) ?_ _ hq'
        simpa [alookup, fun h' : k = k' => hke h'] using hk

theorem dictInsert_forall {P : α × β → Prop} {k : α} {v : β}
    {l : List (α × β)} (h : ∀ p ∈ l, P p) (hk : P (k, v)) :
    ∀ p ∈ dictInsert k v l, P p := by
  induction l with
  | nil => simpa [dictInsert] using hk
  | cons p rest ih =>
    obtain ⟨k', v'⟩ := p
    by_cases hke : k = k'
    · subst hke
      simp only [dictInsert, if_pos rfl]
      intro q hq
      rcases List.mem_cons.mp hq with rfl | hq'
      · exact hk
      · exact h _ (List.mem_cons_of_mem _ hq')
    · simp only [dictInsert, if_neg hke]
      intro q hq
      rcases List.mem_cons.mp hq with rfl | hq'
      · exact h _ (List.mem_cons_self _ _)
      · exact ih (fun r hr => h _ (List.mem_cons_of_mem _ hr)) _ hq'

theorem dictInsert_mem {k : α} {v : β} {l : List (α × β)} {p : α × β}
    (h : p ∈ dictInsert k v l) : p = (k, v) ∨ p ∈ l := by
  induction l with
  | nil => simp [dictInsert] at h; simp [h]
  | cons q rest ih =>
    obtain ⟨k', v'⟩ := q
    by_cases hke : k = k'
    · subst hke
      simp only [dictInsert, if_pos rfl] at h
      rcases List.mem_cons.mp h with rfl | h'
      · exact Or.inl rfl
      · exact Or.inr (List.mem_cons_of_mem _ h')
    · simp only [dictInsert, if_neg hke] at h
      rcases List.mem_cons.mp h with rfl | h'
      · exact Or.inr (List.mem_cons_self _ _)
      · rcases ih h' with h'' | hm
        · exact Or.inl h''
        · exact Or.inr (List.mem_cons_of_mem _ hm)

end DictLemmas

theorem mem_setInsert {x a : Int} {s : List Int} :
    x ∈ setInsert a s ↔ x ∈ s ∨ x = a := by
  by_cases h : a ∈ s
  · simp only [setInsert, if_pos h]
    constructor
    · exact Or.inl
    · rintro (hx | rfl)
      · exact hx
      · exact h
  · simp [setInsert, if_neg h]

theorem setInsert_nodup {a : Int} {s : List Int} (h : List.Nodup s) :
    List.Nodup (setInsert a s) := by
  by_cases hm : a ∈ s
  · simpa [setInsert, if_pos hm] using h
  · simp only [setInsert, if_neg hm]
    refine List.Nodup.append h (List.nodup_singleton a) ?_
    intro b hb hba
    rw [List.mem_singleton] at hba
    subst hba
    exact hm hb

theorem classify_candidate {e : Entry} {ts0 : Int} {scope : String}
    {epochV : Int} {m : ManifestData}
    (h : classifyEntry e = EntryAction.candidate ts0 scope epochV m) :
    e.suffix = ".json" ∧ int? e.stem = some ts0 ∧ e.load = some m ∧
    m.epoch = DateField.ok epochV ∧ m.issuanceDate = DateField.ok ts0 ∧
    m.scope = ScopeField.ok scope := by
  unfold classifyEntry at h
  split at h
  · exact absurd h (by simp)
  next hsuffix =>
  split at h
  · exact absurd h (by simp)
  next ts0' hstem =>
  split at h
  · exact absurd h (by simp)
  next m' hload =>
  split at h
  · exact absurd h (by simp)
  · exact absurd h (by simp)
  next epochV' hepoch =>
  split at h
  · exact absurd h (by simp)
  · exact absurd h (by simp)
  next issMs hiss =>
  split at h
  · exact absurd h (by simp)
  · exact absurd h (by simp)
  next scope' hscope =>
  split at h
  · rename_i hcond
    injection h with h1 h2 h3 h4
    subst h1; subst h2; subst h3; subst h4
    subst hcond
    exact ⟨not_not.mp hsuffix, hstem, hload, hepoch, hiss, hscope⟩
  · exact absurd h (by simp)

theorem lookup2_acceptBundle_self (tmpdir : String) (st : ScanState)
    (stem : String) (ts0 : Int) (scope : String) (epochV : Int)
    (m : ManifestData) (tree : List FsTree) :
    lookup2 (acceptBundle tmpdir st stem ts0 scope epochV m tree).mIdx
      scope ts0 = some m := by
  simp [acceptBundle, lookup2, alookup_dictUpdate_self, alookup_dictInsert_self]

theorem lookup2_acceptBundle_mono {tmpdir : String} {st : ScanState}
    {stem : String} {ts0 : Int} {scope : String} {epochV : Int}
    {m : ManifestData} {tree : List FsTree} {s : String} {t : Int}
    {m' : ManifestData}
    (hnew : lookup2 st.mIdx scope ts0 = none)
    (h : lookup2 st.mIdx s t = some m') :
    lookup2 (acceptBundle tmpdir st stem ts0 scope epochV m tree).mIdx
      s t = some m' := by
  by_cases hs : s = scope
  · subst hs
    cases hinner : alookup s st.mIdx with
    | none => simp [lookup2, hinner] at h
    | some inner =>
      by_cases ht : t = ts0
      · subst ht
        rw [hnew] at h
        exact absurd h (by simp)
      · simp only [lookup2, acceptBundle, alookup_dictUpdate_self, hinner,
          Option.getD_some] at h ⊢
        rw [alookup_dictInsert_ne _ _ _ _ ht]
        exact h
  · simp only [lookup2, acceptBundle] at h ⊢
    rw [alookup_dictUpdate_ne _ _ _ _ _ hs]
    exact h

theorem ScanExtends.rfl (a : ScanState) : ScanExtends a a :=
  fun _ _ _ h => h

theorem ScanExtends.trans {a b c : ScanState}
    (h1 : ScanExtends a b) (h2 : ScanExtends b c) : ScanExtends a c :=
  fun s t m h => h2 s t m (h1 s t m h)

theorem processEntry_extends (tmpdir : String) (st : ScanState) (e : Entry) :
    ScanExtends st (processEntry tmpdir st e).1 := by
  unfold processEntry
  split
  · exact ScanExtends.rfl st
  · exact ScanExtends.rfl st
  · split
    · exact ScanExtends.rfl st
    next hnew =>
      split
      · exact ScanExtends.rfl st
      · intro s t m' h
        exact lookup2_acceptBundle_mono hnew h

theorem scanEntries_cons_none {tmpdir : String} {st st' : ScanState}
    {e : Entry} {rest : List Entry}
    (hp : processEntry tmpdir st e = (st', none)) :
    scanEntries tmpdir st (e :: rest) = scanEntries tmpdir st' rest := by
  simp only [scanEntries, hp]

theorem scanEntries_cons_some {tmpdir : String} {st st' : ScanState}
    {e : Entry} {rest : List Entry} {err : ScanError}
    (hp : processEntry tmpdir st e = (st', some err)) :
    scanEntries tmpdir st (e :: rest) = (st', some err) := by
  simp only [scanEntries, hp]

theorem scanEntries_extends (tmpdir : String) (st : ScanState)
    (es : List Entry) : ScanExtends st (scanEntries tmpdir st es).1 := by
  induction es generalizing st with
  | nil => exact ScanExtends.rfl st
  | cons e rest ih =>
    cases hp : processEntry tmpdir st e with
    | mk st' o =>
      have h1 : ScanExtends st st' := by
        have := processEntry_extends tmpdir st e
        rwa [hp] at this
      cases o with
      | none =>
        rw [scanEntries_cons_none hp]
        exact h1.trans (ih st')
      | some err =>
        rw [scanEntries_cons_some hp]
        exact h1

theorem scanEntries_append (tmpdir : String) (st : ScanState)
    (xs ys : List Entry) :
    scanEntries tmpdir st (xs ++ ys) =
      match scanEntries tmpdir st xs with
      | (st', none) => scanEntries tmpdir st' ys
      | (st', some e) => (st', some e) := by
  induction xs generalizing st with
  | nil => simp [scanEntries]
  | cons e rest ih =>
    cases hp : processEntry tmpdir st e with
    | mk st' o =>
      cases o with
      | none =>
        rw [List.cons_append, scanEntries_cons_none hp,
          scanEntries_cons_none hp, ih]
      | some err =>
        rw [List.cons_append, scanEntries_cons_some hp,
          scanEntries_cons_some hp]

theorem processEntry_stable {tmpdir : String} {st st₂ st₃ : ScanState}
    {e : Entry} (hp : processEntry tmpdir st e = (st₂, none))
    (hext : ScanExtends st₂ st₃) :
    processEntry tmpdir st₃ e = (st₃, none) := by
  cases hc : classifyEntry e with
  | skip => simp only [processEntry, hc]
  | assertFail =>
    simp only [processEntry, hc] at hp
    exact absurd hp (by simp)
  | candidate ts0 scope epochV m =>
    simp only [processEntry, hc] at hp ⊢
    cases hl : lookup2 st.mIdx scope ts0 with
    | some m0 =>
      simp only [hl] at hp
      have hst : st = st₂ := by injection hp
      have hl2 : lookup2 st₂.mIdx scope ts0 = some m0 := by
        rw [← hst]
        exact hl
      have h3 : lookup2 st₃.mIdx scope ts0 = some m0 := hext _ _ _ hl2
      simp only [h3]
    | none =>
      simp only [hl] at hp
      cases hz : e.zip with
      | none =>
        simp only [hz] at hp
        exact absurd hp (by simp)
      | some tree =>
        simp only [hz] at hp
        have hst : acceptBundle tmpdir st e.stem ts0 scope epochV m tree = st₂ := by
          injection hp
        have h3 : lookup2 st₃.mIdx scope ts0 = some m := by
          apply hext
          rw [← hst]
          exact lookup2_acceptBundle_self tmpdir st e.stem ts0 scope epochV m tree
        simp only [h3]

theorem scanEntries_stable {tmpdir : String} {st st' : ScanState}
    {es : List Entry} (h : scanEntries tmpdir st es = (st', none)) :
    ∀ st₃, ScanExtends st' st₃ → scanEntries tmpdir st₃ es = (st₃, none) := by
  induction es generalizing st with
  | nil =>
    intro st₃ _
    rfl
  | cons e rest ih =>
    intro st₃ hext
    cases hp : processEntry tmpdir st e with
    | mk st₂ o =>
      cases o with
      | some err =>
        rw [scanEntries_cons_some hp] at h
        exact absurd h (by simp)
      | none =>
        rw [scanEntries_cons_none hp] at h
        have hext2 : ScanExtends st₂ st' := by
          have := scanEntries_extends tmpdir st₂ rest
          rwa [h] at this
        have hp3 : processEntry tmpdir st₃ e = (st₃, none) :=
          processEntry_stable hp (hext2.trans hext)
        rw [scanEntries_cons_none hp3]
        exact ih h st₃ hext

/-- C5: for a directory whose manifests' (scope, timestamp) pairs are all
already present in the Dedup Index, another scan cycle enqueues no new
per-file upload jobs for those bundles and leaves both indices unchanged:
a directory walk that completed without error, replayed from its own
final state (so that every accepted pair is now indexed), returns exactly
that state - same dedup index, same epoch index, same job list - and no
error. -/
theorem c5_rescan_idempotent (tmpdir : String) (st : ScanState)
    (es : List Entry) (st' : ScanState)
    (h : scanEntries tmpdir st es = (st', none)) :
    scanEntries tmpdir st' es = (st', none) :=
  scanEntries_stable h st' (ScanExtends.rfl st')

/-- Witness for C5: a concrete bundle accepted by a first walk is skipped
by the dedup probe on the second walk, which changes nothing. -/
theorem c5_rescan_idempotent_witness :
    scanEntries "t"
      ⟨[("s", [(1000, ⟨DateField.ok 5, DateField.ok 1000, ScopeField.ok "s", 7⟩)])],
       [(5, [("s", [1000])])],
       [("t/s/1000/a.csv", "files/s/1000/a.csv"),
        ("t/s/1000/a.csv", "files/1000/a.csv")]⟩
      [⟨"1000", ".json",
        some ⟨DateField.ok 5, DateField.ok 1000, ScopeField.ok "s", 7⟩,
        some [FsTree.file "a.csv"]⟩] =
    (⟨[("s", [(1000, ⟨DateField.ok 5, DateField.ok 1000, ScopeField.ok "s", 7⟩)])],
      [(5, [("s", [1000])])],
      [("t/s/1000/a.csv", "files/s/1000/a.csv"),
       ("t/s/1000/a.csv", "files/1000/a.csv")]⟩, none) :=
  c5_rescan_idempotent "t" ⟨[], [], []⟩ _ _ (by decide)

theorem idxInv_accept {tmpdir : String} {st : ScanState} {stem : String}
    {ts0 : Int} {scope : String} {epochV : Int} {m : ManifestData}
    {tree : List FsTree} (hInv : IdxInv st)
    (hm : m.issuanceDate = DateField.ok ts0)
    (hnew : lookup2 st.mIdx scope ts0 = none) :
    IdxInv (acceptBundle tmpdir st stem ts0 scope epochV m tree) := by
  obtain ⟨hM, hE⟩ := hInv
  have hpres : ∀ s' t',
      Option.map ManifestData.issuanceDate (lookup2 st.mIdx s' t') =
        some (DateField.ok t') →
      Option.map ManifestData.issuanceDate
        (lookup2 (acceptBundle tmpdir st stem ts0 scope epochV m tree).mIdx
          s' t') = some (DateField.ok t') := by
    intro s' t' h
    cases hx : lookup2 st.mIdx s' t' with
    | none => rw [hx] at h; exact absurd h (by simp)
    | some mm =>
      rw [hx] at h
      rw [lookup2_acceptBundle_mono hnew hx]
      exact h
  constructor
  · show MInv (dictUpdate scope [] (dictInsert ts0 m) st.mIdx)
    unfold MInv
    apply dictUpdate_forall hM
    apply dictInsert_forall
    · cases hinner : alookup scope st.mIdx with
      | none => simp
      | some inner =>
        intro q hq
        exact hM _ (alookup_mem hinner) q (by simpa using hq)
    · exact hm
  · show EInv _ (dictUpdate epochV [] (dictUpdate scope [] (setInsert ts0)) st.eIdx)
    unfold EInv
    apply dictUpdate_forall
    · intro p hp q hq t ht
      exact hpres _ _ (hE p hp q hq t ht)
    · apply dictUpdate_forall
      · cases hold : alookup epochV st.eIdx with
        | none => simp
        | some scopesOld =>
          intro q hq t ht
          exact hpres _ _ (hE _ (alookup_mem hold) q (by simpa using hq) t ht)
      · intro t ht
        rcases mem_setInsert.mp ht with htOld | rfl
        · cases hold : alookup epochV st.eIdx with
          | none => simp [hold, alookup] at htOld
          | some scopesOld =>
            rw [hold] at htOld
            simp only [Option.getD_some] at htOld
            cases hs : alookup scope scopesOld with
            | none => simp [hs] at htOld
            | some oldSet =>
              rw [hs] at htOld
              simp only [Option.getD_some] at htOld
              exact hpres _ _
                (hE _ (alookup_mem hold) _ (alookup_mem hs) t htOld)
        · rw [lookup2_acceptBundle_self]
          simp [hm]

theorem processEntry_inv (tmpdir : String) (st : ScanState) (e : Entry)
    (hInv : IdxInv st) : IdxInv (processEntry tmpdir st e).1 := by
  cases hc : classifyEntry e with
  | skip => simpa [processEntry, hc] using hInv
  | assertFail => simpa [processEntry, hc] using hInv
  | candidate ts0 scope epochV m =>
    simp only [processEntry, hc]
    cases hl : lookup2 st.mIdx scope ts0 with
    | some m0 => simpa [hl] using hInv
    | none =>
      cases hz : e.zip with
      | none => simpa [hl, hz] using hInv
      | some tree =>
        simp only [hl, hz]
        have hm : m.issuanceDate = DateField.ok ts0 :=
          (classify_candidate hc).2.2.2.2.1
        exact idxInv_accept hInv hm hl

theorem scanEntries_inv (tmpdir : String) (st : ScanState) (es : List Entry)
    (hInv : IdxInv st) : IdxInv (scanEntries tmpdir st es).1 := by
  induction es generalizing st with
  | nil => exact hInv
  | cons e rest ih =>
    cases hp : processEntry tmpdir st e with
    | mk st₂ o =>
      have h2 : IdxInv st₂ := by
        have := processEntry_inv tmpdir st e hInv
        rwa [hp] at this
      cases o with
      | none =>
        rw [scanEntries_cons_none hp]
        exact ih st₂ h2
      | some err =>
        rw [scanEntries_cons_some hp]
        exact h2

/-- C7: the millisecond-rounding invariant.  A scanned manifest whose
`round(issuanceDate.timestamp() * 1000)` differs from the integer parsed
from its filename stem trips the `assert` before the indices are touched,
so it never enters either index; consequently, starting from any state
whose indices satisfy the invariant (in particular the empty initial
state), after any directory walk - whether it completes or aborts - every
manifest stored in the Dedup Index under `(scope, ts)` has issuance
milliseconds equal to `ts`, and every `(epoch, scope, ts)` triple of the
Epoch Index points at such a manifest. -/
theorem c7_rounding_invariant (tmpdir : String) (st : ScanState)
    (es : List Entry) (hInv : IdxInv st) :
    IdxInv (scanEntries tmpdir st es).1 :=
  scanEntries_inv tmpdir st es hInv

/-- Witness for C7: a walk over one valid bundle and one bundle whose
issuance milliseconds (999) differ from its stem (2000); the invariant
holds of the resulting state (the offender entered neither index). -/
theorem c7_rounding_invariant_witness :
    IdxInv (scanEntries "t" ⟨[], [], []⟩
      [⟨"1000", ".json",
        some ⟨DateField.ok 5, DateField.ok 1000, ScopeField.ok "s", 7⟩,
        some [FsTree.file "a.csv"]⟩,
       ⟨"2000", ".json",
        some ⟨DateField.ok 5, DateField.ok 999, ScopeField.ok "s", 8⟩,
        some [FsTree.file "b.csv"]⟩]).1 :=
  c7_rounding_invariant "t" ⟨[], [], []⟩ _
    (by unfold IdxInv MInv EInv; decide)

theorem mem_setUnion {x : Int} {a b : List Int} :
    x ∈ setUnion a b ↔ x ∈ a ∨ x ∈ b := by
  simp only [setUnion, List.mem_append, List.mem_filter, decide_eq_true_eq]
  tauto

theorem setUnion_nodup {a b : List Int} (ha : a.Nodup) (hb : b.Nodup) :
    (setUnion a b).Nodup := by
  refine List.Nodup.append ha (List.Nodup.filter _ hb) ?_
  intro x hx hx'
  rw [List.mem_filter, decide_eq_true_eq] at hx'
  exact hx'.2 hx

theorem mem_foldl_setUnion {x : Int} {a : List Int} {ls : List (List Int)} :
    x ∈ ls.foldl setUnion a ↔ x ∈ a ∨ ∃ s ∈ ls, x ∈ s := by
  induction ls generalizing a with
  | nil => simp
  | cons s rest ih =>
    simp only [List.foldl_cons]
    rw [ih]
    simp only [mem_setUnion, List.exists_mem_cons_iff]
    tauto

theorem foldl_setUnion_nodup {a : List Int} {ls : List (List Int)}
    (ha : a.Nodup) (hls : ∀ s ∈ ls, s.Nodup) :
    (ls.foldl setUnion a).Nodup := by
  induction ls generalizing a with
  | nil => exact ha
  | cons s rest ih =>
    exact ih (setUnion_nodup ha (hls s (List.mem_cons_self _ _)))
      (fun s' hs' => hls s' (List.mem_cons_of_mem _ hs'))

theorem redUnion_mem {ls : List (List Int)} {u : List Int} {x : Int}
    (h : redUnion ls = some u) : x ∈ u ↔ ∃ s ∈ ls, x ∈ s := by
  cases ls with
  | nil => simp [redUnion] at h
  | cons a rest =>
    simp only [redUnion, Option.some.injEq] at h
    subst h
    rw [mem_foldl_setUnion]
    simp only [List.exists_mem_cons_iff]

theorem redUnion_nodup {ls : List (List Int)} {u : List Int}
    (h : redUnion ls = some u) (hls : ∀ s ∈ ls, s.Nodup) : u.Nodup := by
  cases ls with
  | nil => simp [redUnion] at h
  | cons a rest =>
    simp only [redUnion, Option.some.injEq] at h
    subst h
    exact foldl_setUnion_nodup (hls a (List.mem_cons_self _ _))
      (fun s hs => hls s (List.mem_cons_of_mem _ hs))

theorem maxKey_none {α : Type} {l : List (Int × α)} :
    maxKey l = none ↔ l = [] := by
  cases l with
  | nil => simp [maxKey]
  | cons p rest => simp [maxKey]

theorem maxKey_mem_keys {α : Type} {l : List (Int × α)} {k : Int}
    (h : maxKey l = some k) : k ∈ l.map Prod.fst := by
  induction l with
  | nil => simp [maxKey] at h
  | cons p rest ih =>
    obtain ⟨k0, v0⟩ := p
    simp only [maxKey, Option.some.injEq] at h
    cases hr : maxKey rest with
    | none =>
      simp only [hr] at h
      simp only [List.map_cons, List.mem_cons]
      exact Or.inl h.symm
    | some mrest =>
      simp only [hr] at h
      rcases max_choice k0 mrest with hc | hc <;> rw [hc] at h
      · simp only [List.map_cons, List.mem_cons]
        exact Or.inl h.symm
      · simp only [List.map_cons, List.mem_cons]
        subst h
        exact Or.inr (ih hr)

theorem eIdxWF_accept {tmpdir : String} {st : ScanState} {stem : String}
    {ts0 : Int} {scope : String} {epochV : Int} {m : ManifestData}
    {tree : List FsTree} (h : EIdxWF st.eIdx) :
    EIdxWF (acceptBundle tmpdir st stem ts0 scope epochV m tree).eIdx := by
  show EIdxWF (dictUpdate epochV [] (dictUpdate scope [] (setInsert ts0)) st.eIdx)
  unfold EIdxWF
  apply dictUpdate_forall h
  apply dictUpdate_forall
  · cases hold : alookup epochV st.eIdx with
    | none => simp
    | some scopesOld =>
      intro q hq
      exact h _ (alookup_mem hold) q (by simpa using hq)
  · apply setInsert_nodup
    cases hold : alookup epochV st.eIdx with
    | none => simp [alookup]
    | some scopesOld =>
      simp only [Option.getD_some]
      cases hs : alookup scope scopesOld with
      | none => simp
      | some oldSet =>
        simpa using h _ (alookup_mem hold) _ (alookup_mem hs)

theorem processEntry_wf (tmpdir : String) (st : ScanState) (e : Entry)
    (h : EIdxWF st.eIdx) : EIdxWF (processEntry tmpdir st e).1.eIdx := by
  cases hc : classifyEntry e with
  | skip => simpa [processEntry, hc] using h
  | assertFail => simpa [processEntry, hc] using h
  | candidate ts0 scope epochV m =>
    simp only [processEntry, hc]
    cases hl : lookup2 st.mIdx scope ts0 with
    | some m0 => simpa [hl] using h
    | none =>
      cases hz : e.zip with
      | none => simpa [hl, hz] using h
      | some tree =>
        simp only [hl, hz]
        exact eIdxWF_accept h

theorem scanEntries_wf (tmpdir : String) (st : ScanState) (es : List Entry)
    (h : EIdxWF st.eIdx) : EIdxWF (scanEntries tmpdir st es).1.eIdx := by
  induction es generalizing st with
  | nil => exact h
  | cons e rest ih =>
    cases hp : processEntry tmpdir st e with
    | mk st₂ o =>
      have h2 : EIdxWF st₂.eIdx := by
        have := processEntry_wf tmpdir st e h
        rwa [hp] at this
      cases o with
      | none =>
        rw [scanEntries_cons_none hp]
        exact ih st₂ h2
      | some err =>
        rw [scanEntries_cons_some hp]
        exact h2

theorem publishPhase_full {cachePath : String} {st : ScanState}
    (hne : st.eIdx ≠ [])
    (hok : (publishPhase cachePath st).2.2 = none) :
    ∃ maxE scopes u l,
      maxKey st.eIdx = some maxE ∧
      alookup maxE st.eIdx = some scopes ∧
      redUnion (scopes.map Prod.snd) = some u ∧
      buildList st.mIdx [] scopes = some l ∧
      (publishPhase cachePath st).1 =
        [CItem.tsDoc ((List.insertionSort (fun a b => a ≤ b) u).map toString)
           apiTimestampsKey,
         CItem.listDoc l apiListKey,
         CItem.cache cachePath apiIndexerScoresKey] ∧
      (publishPhase cachePath st).2.1 = some sleepSeconds := by
  cases hmax : maxKey st.eIdx with
  | none => exact absurd (maxKey_none.mp hmax) hne
  | some maxE =>
    cases hsc : alookup maxE st.eIdx with
    | none => simp [publishPhase, hmax, hsc] at hok
    | some scopes =>
      cases hu : redUnion (scopes.map Prod.snd) with
      | none => simp [publishPhase, hmax, hsc, hu] at hok
      | some u =>
        cases hb : buildList st.mIdx [] scopes with
        | none => simp [publishPhase, hmax, hsc, hu, hb] at hok
        | some l =>
          refine ⟨maxE, scopes, u, l, rfl, hsc, hu, hb, ?_, ?_⟩ <;>
            simp [publishPhase, hmax, hsc, hu, hb]

theorem publishPhase_empty {cachePath : String} {st : ScanState}
    (hempty : st.eIdx = []) :
    publishPhase cachePath st = ([], none, none) := by
  have : maxKey st.eIdx = none := maxKey_none.mpr hempty
  simp [publishPhase, this]

theorem runCycle_scan_err {tmpdir cachePath : String} {mIdx : MIdx}
    {eIdx : EIdx} {entries : List Entry} {st' : ScanState} {err : ScanError}
    (h : scanEntries tmpdir ⟨mIdx, eIdx, []⟩ entries = (st', some err)) :
    runCycle tmpdir cachePath mIdx eIdx entries =
      ⟨st'.mIdx, st'.eIdx,
       st'.jobs.map (fun j => CItem.file j.1 j.2) ++ [CItem.sentinel],
       none, some err⟩ := by
  simp only [runCycle, h]

theorem runCycle_scan_ok {tmpdir cachePath : String} {mIdx : MIdx}
    {eIdx : EIdx} {entries : List Entry} {st' : ScanState}
    (h : scanEntries tmpdir ⟨mIdx, eIdx, []⟩ entries = (st', none)) :
    runCycle tmpdir cachePath mIdx eIdx entries =
      ⟨st'.mIdx, st'.eIdx,
       st'.jobs.map (fun j => CItem.file j.1 j.2) ++
         (publishPhase cachePath st').1 ++ [CItem.sentinel],
       (publishPhase cachePath st').2.1, (publishPhase cachePath st').2.2⟩ := by
  simp only [runCycle, h]

/-- C3 is falsified on the code at a concrete cycle: with empty indices
and nothing to scan, the cycle indeed ends without error and skips
publishing, but the `continue` taken when `max()` raises on the empty
epoch index jumps past `await asyncio.sleep(10)`: the result records no
sleep (`sleep = none`) where the claim requires the fixed 10-unit sleep
before the next cycle. -/
theorem c3_counterexample :
    runCycle "tmp" "cache.csv" [] [] [] =
      ⟨[], [], [CItem.sentinel], none, none⟩ := by decide

/-- C3 (amended): in every cycle at whose end no epoch has ever been
observed (the Epoch Index is empty after the scan), the cycle ends
normally without error and publishing is skipped - no document or cache
item is enqueued, only the per-file jobs and the shutdown sentinel - but
the process does not sleep: the `continue` skips the fixed 10-unit sleep
and the next cycle begins immediately (cleanup still runs). -/
theorem c3_no_epoch_skips_sleep (tmpdir cachePath : String) (mIdx : MIdx)
    (eIdx : EIdx) (entries : List Entry) (st' : ScanState)
    (h : scanEntries tmpdir ⟨mIdx, eIdx, []⟩ entries = (st', none))
    (hempty : st'.eIdx = []) :
    (runCycle tmpdir cachePath mIdx eIdx entries).err = none ∧
    (runCycle tmpdir cachePath mIdx eIdx entries).sleep = none ∧
    (runCycle tmpdir cachePath mIdx eIdx entries).queue =
      st'.jobs.map (fun j => CItem.file j.1 j.2) ++ [CItem.sentinel] := by
  rw [runCycle_scan_ok h, publishPhase_empty hempty]
  simp

/-- Witness for C3 (amended) at a concrete empty cycle. -/
theorem c3_no_epoch_skips_sleep_witness :
    (runCycle "w" "c.csv" [] [] []).err = none ∧
    (runCycle "w" "c.csv" [] [] []).sleep = none ∧
    (runCycle "w" "c.csv" [] [] []).queue =
      (([] : List (String × String)).map (fun j => CItem.file j.1 j.2)) ++
        [CItem.sentinel] :=
  c3_no_epoch_skips_sleep "w" "c.csv" [] [] [] ⟨[], [], []⟩ (by decide) rfl

/-- C4 is falsified on the code at a concrete cycle: in a cycle where no
epoch has ever been observed, the `continue` is taken before the
indexer-cache enqueue is reached, so the cache file is not enqueued -
contradicting "unconditionally every cycle". -/
theorem c4_counterexample :
    CItem.cache "scores.csv" apiIndexerScoresKey ∉
      (runCycle "run0" "scores.csv" [] [] []).queue := by decide

/-- C4 (amended): in every cycle that reaches the publish phase - the
scan ends without error and at least one epoch has ever been observed -
the indexer-score cache file given at startup is enqueued for upload to
destination key `api/scores/indexer-scores`, regardless of whether any
new bundle was found during that cycle; in a cycle whose epoch index is
still empty (or that aborts with an error) it is not enqueued. -/
theorem c4_cache_enqueued_when_publishing (tmpdir cachePath : String)
    (mIdx : MIdx) (eIdx : EIdx) (entries : List Entry)
    (hok : (runCycle tmpdir cachePath mIdx eIdx entries).err = none)
    (hne : (runCycle tmpdir cachePath mIdx eIdx entries).eIdx ≠ []) :
    CItem.cache cachePath apiIndexerScoresKey ∈
      (runCycle tmpdir cachePath mIdx eIdx entries).queue := by
  cases hscan : scanEntries tmpdir ⟨mIdx, eIdx, []⟩ entries with
  | mk st' o =>
    cases o with
    | some err =>
      rw [runCycle_scan_err hscan] at hok
      exact absurd hok (by simp)
    | none =>
      rw [runCycle_scan_ok hscan] at hok hne ⊢
      have hok' : (publishPhase cachePath st').2.2 = none := hok
      have hne' : st'.eIdx ≠ [] := hne
      obtain ⟨maxE, scopes, u, l, hmax, hsc, hu, hb, hitems, hsleep⟩ :=
        publishPhase_full hne' hok'
      show CItem.cache cachePath apiIndexerScoresKey ∈
        st'.jobs.map (fun j => CItem.file j.1 j.2) ++
          (publishPhase cachePath st').1 ++ [CItem.sentinel]
      rw [hitems]
      simp

/-- Witness for C4 (amended): a cycle that scans nothing new but whose
epoch index is already populated from an earlier cycle still enqueues
the cache file. -/
theorem c4_cache_enqueued_when_publishing_witness :
    CItem.cache "c.csv" apiIndexerScoresKey ∈
      (runCycle "w" "c.csv"
        [("s", [(1000, ⟨DateField.ok 5, DateField.ok 1000, ScopeField.ok "s", 7⟩)])]
        [(5, [("s", [1000])])] []).queue :=
  c4_cache_enqueued_when_publishing "w" "c.csv"
    [("s", [(1000, ⟨DateField.ok 5, DateField.ok 1000, ScopeField.ok "s", 7⟩)])]
    [(5, [("s", [1000])])] [] (by decide) (by decide)

/-- C6: whenever a cycle publishes its index documents, the
`timestamps.json` payload is exactly the decimal-string rendering of the
sorted union of all bundle timestamps across all scopes recorded under
the maximum observed epoch, the underlying integer sequence is strictly
ascending by numeric value, and the document is enqueued for upload to
key `api/scores/timestamps.json`. -/
theorem c6_timestamps_sorted_union (tmpdir cachePath : String) (mIdx : MIdx)
    (eIdx : EIdx) (entries : List Entry) (hwf : EIdxWF eIdx)
    (hok : (runCycle tmpdir cachePath mIdx eIdx entries).err = none)
    (hne : (runCycle tmpdir cachePath mIdx eIdx entries).eIdx ≠ []) :
    ∃ maxE scopes u,
      maxKey (runCycle tmpdir cachePath mIdx eIdx entries).eIdx = some maxE ∧
      alookup maxE (runCycle tmpdir cachePath mIdx eIdx entries).eIdx =
        some scopes ∧
      (∀ t : Int, t ∈ u ↔ ∃ q ∈ scopes, t ∈ q.2) ∧
      List.Chain' (fun a b : Int => a < b)
        (List.insertionSort (fun a b : Int => a ≤ b) u) ∧
      CItem.tsDoc ((List.insertionSort (fun a b : Int => a ≤ b) u).map toString)
        apiTimestampsKey ∈ (runCycle tmpdir cachePath mIdx eIdx entries).queue := by
  cases hscan : scanEntries tmpdir ⟨mIdx, eIdx, []⟩ entries with
  | mk st' o =>
    cases o with
    | some err =>
      rw [runCycle_scan_err hscan] at hok
      exact absurd hok (by simp)
    | none =>
      rw [runCycle_scan_ok hscan] at hok hne ⊢
      have hok' : (publishPhase cachePath st').2.2 = none := hok
      have hne' : st'.eIdx ≠ [] := hne
      obtain ⟨maxE, scopes, u, l, hmax, hsc, hu, hb, hitems, hsleep⟩ :=
        publishPhase_full hne' hok'
      have hwf' : EIdxWF st'.eIdx := by
        have := scanEntries_wf tmpdir ⟨mIdx, eIdx, []⟩ entries hwf
        rwa [hscan] at this
      refine ⟨maxE, scopes, u, hmax, hsc, ?_, ?_, ?_⟩
      · intro t
        rw [redUnion_mem hu]
        constructor
        · rintro ⟨s, hs, hts⟩
          rw [List.mem_map] at hs
          obtain ⟨q, hq, rfl⟩ := hs
          exact ⟨q, hq, hts⟩
        · rintro ⟨q, hq, hts⟩
          exact ⟨q.2, List.mem_map_of_mem Prod.snd hq, hts⟩
      · have hnodup_sets : ∀ s ∈ scopes.map Prod.snd, s.Nodup := by
          intro s hs
          rw [List.mem_map] at hs
          obtain ⟨q, hq, rfl⟩ := hs
          exact hwf' _ (alookup_mem hsc) q hq
        have hnd : u.Nodup := redUnion_nodup hu hnodup_sets
        have hsorted : List.Sorted (fun a b : Int => a ≤ b)
            (List.insertionSort (fun a b : Int => a ≤ b) u) :=
          List.sorted_insertionSort _ u
        have hndsorted : (List.insertionSort (fun a b : Int => a ≤ b) u).Nodup :=
          ((List.perm_insertionSort _ u).nodup_iff).mpr hnd
        have hpl : (List.insertionSort (fun a b : Int => a ≤ b) u).Pairwise
            (fun a b : Int => a < b) :=
          (hsorted.and hndsorted).imp (fun h => lt_of_le_of_ne h.1 h.2)
        exact hpl.chain'
      · show CItem.tsDoc _ apiTimestampsKey ∈
          st'.jobs.map (fun j => CItem.file j.1 j.2) ++
            (publishPhase cachePath st').1 ++ [CItem.sentinel]
        rw [hitems]
        simp

/-- Witness for C6 at a concrete published cycle: two scopes under the
maximum epoch with overlapping, unsorted timestamp sets. -/
theorem c6_timestamps_sorted_union_witness :
    ∃ maxE scopes u,
      maxKey (runCycle "w" "c.csv"
        [("a", [(2000, ⟨DateField.ok 5, DateField.ok 2000, ScopeField.ok "a", 1⟩),
                (1000, ⟨DateField.ok 5, DateField.ok 1000, ScopeField.ok "a", 2⟩)]),
         ("b", [(1000, ⟨DateField.ok 5, DateField.ok 1000, ScopeField.ok "b", 3⟩)])]
        [(5, [("a", [2000, 1000]), ("b", [1000])])] []).eIdx = some maxE ∧
      alookup maxE (runCycle "w" "c.csv"
        [("a", [(2000, ⟨DateField.ok 5, DateField.ok 2000, ScopeField.ok "a", 1⟩),
                (1000, ⟨DateField.ok 5, DateField.ok 1000, ScopeField.ok "a", 2⟩)]),
         ("b", [(1000, ⟨DateField.ok 5, DateField.ok 1000, ScopeField.ok "b", 3⟩)])]
        [(5, [("a", [2000, 1000]), ("b", [1000])])] []).eIdx = some scopes ∧
      (∀ t : Int, t ∈ u ↔ ∃ q ∈ scopes, t ∈ q.2) ∧
      List.Chain' (fun a b : Int => a < b)
        (List.insertionSort (fun a b : Int => a ≤ b) u) ∧
      CItem.tsDoc ((List.insertionSort (fun a b : Int => a ≤ b) u).map toString)
        apiTimestampsKey ∈ (runCycle "w" "c.csv"
        [("a", [(2000, ⟨DateField.ok 5, DateField.ok 2000, ScopeField.ok "a", 1⟩),
                (1000, ⟨DateField.ok 5, DateField.ok 1000, ScopeField.ok "a", 2⟩)]),
         ("b", [(1000, ⟨DateField.ok 5, DateField.ok 1000, ScopeField.ok "b", 3⟩)])]
        [(5, [("a", [2000, 1000]), ("b", [1000])])] []).queue :=
  c6_timestamps_sorted_union "w" "c.csv"
    [("a", [(2000, ⟨DateField.ok 5, DateField.ok 2000, ScopeField.ok "a", 1⟩),
            (1000, ⟨DateField.ok 5, DateField.ok 1000, ScopeField.ok "a", 2⟩)]),
     ("b", [(1000, ⟨DateField.ok 5, DateField.ok 1000, ScopeField.ok "b", 3⟩)])]
    [(5, [("a", [2000, 1000]), ("b", [1000])])] []
    (by unfold EIdxWF; decide) (by decide) (by decide)

/-- C1 is falsified on the code at a concrete bundle: the extracted tree
holds one regular file, `sub/data.txt`, inside a nested subdirectory (the
spec-side recursive enumeration `allFilesList` lists it), the bundle is
accepted (the scan ends without error and the dedup index is populated),
yet not a single upload job is enqueued - the source iterates only the
direct children of the extraction root, so a nested file gets zero jobs,
not the claimed two. -/
theorem c1_counterexample :
    allFilesList [FsTree.dir "sub" [FsTree.file "data.txt"]] =
      ["sub/data.txt"] ∧
    (scanEntries "tmp" ⟨[], [], []⟩
      [⟨"1000", ".json",
        some ⟨DateField.ok 5, DateField.ok 1000, ScopeField.ok "s", 0⟩,
        some [FsTree.dir "sub" [FsTree.file "data.txt"]]⟩]).2 = none ∧
    (scanEntries "tmp" ⟨[], [], []⟩
      [⟨"1000", ".json",
        some ⟨DateField.ok 5, DateField.ok 1000, ScopeField.ok "s", 0⟩,
        some [FsTree.dir "sub" [FsTree.file "data.txt"]]⟩]).1.mIdx ≠ [] ∧
    (scanEntries "tmp" ⟨[], [], []⟩
      [⟨"1000", ".json",
        some ⟨DateField.ok 5, DateField.ok 1000, ScopeField.ok "s", 0⟩,
        some [FsTree.dir "sub" [FsTree.file "data.txt"]]⟩]).1.jobs = [] := by
  refine ⟨?_, ?_, ?_, ?_⟩
  · simp [allFilesList]
  · decide
  · decide
  · decide

/-- C1 (amended): for every newly accepted bundle, and for every regular
file that is a direct child of the extraction root, exactly two upload
jobs are enqueued for that file - one with destination key
`files/{scope}/{bundle-timestamp}/{name}` and one with destination key
`files/{bundle-timestamp}/{name}`; regular files inside nested
subdirectories are not enqueued at all, because the source iterates
`zipdir.iterdir()` non-recursively.  The theorem characterizes the jobs
an accepted entry appends as precisely the two-job fan-out over the
direct-child file names. -/
theorem c1_two_jobs_per_direct_child (tmpdir : String) (st : ScanState)
    (e : Entry) (ts0 : Int) (scope : String) (epochV : Int)
    (m : ManifestData) (tree : List FsTree)
    (hc : classifyEntry e = EntryAction.candidate ts0 scope epochV m)
    (hnew : lookup2 st.mIdx scope ts0 = none)
    (hzip : e.zip = some tree) :
    (processEntry tmpdir st e).2 = none ∧
    (processEntry tmpdir st e).1.jobs =
      st.jobs ++ (topFileNames tree).flatMap (fun n =>
        [(tmpdir ++ "/" ++ scope ++ "/" ++ e.stem ++ "/" ++ n,
          "files/" ++ scope ++ "/" ++ toString ts0 ++ "/" ++ n),
         (tmpdir ++ "/" ++ scope ++ "/" ++ e.stem ++ "/" ++ n,
          "files/" ++ toString ts0 ++ "/" ++ n)]) := by
  simp only [processEntry, hc, hnew, hzip]
  constructor
  · trivial
  · rfl

/-- Witness for C1 (amended): an accepted bundle with one direct-child
file and one nested file gets exactly the two jobs for the direct child. -/
theorem c1_two_jobs_per_direct_child_witness :
    (processEntry "tmp" ⟨[], [], []⟩
      ⟨"1000", ".json",
       some ⟨DateField.ok 5, DateField.ok 1000, ScopeField.ok "s", 0⟩,
       some [FsTree.file "a.csv", FsTree.dir "sub" [FsTree.file "n.txt"]]⟩).2
      = none ∧
    (processEntry "tmp" ⟨[], [], []⟩
      ⟨"1000", ".json",
       some ⟨DateField.ok 5, DateField.ok 1000, ScopeField.ok "s", 0⟩,
       some [FsTree.file "a.csv", FsTree.dir "sub" [FsTree.file "n.txt"]]⟩).1.jobs
      = [] ++ (topFileNames
          [FsTree.file "a.csv", FsTree.dir "sub" [FsTree.file "n.txt"]]).flatMap
          (fun n =>
            [("tmp" ++ "/" ++ "s" ++ "/" ++ "1000" ++ "/" ++ n,
              "files/" ++ "s" ++ "/" ++ toString (1000 : Int) ++ "/" ++ n),
             ("tmp" ++ "/" ++ "s" ++ "/" ++ "1000" ++ "/" ++ n,
              "files/" ++ toString (1000 : Int) ++ "/" ++ n)]) :=
  c1_two_jobs_per_direct_child "tmp" ⟨[], [], []⟩
    ⟨"1000", ".json",
     some ⟨DateField.ok 5, DateField.ok 1000, ScopeField.ok "s", 0⟩,
     some [FsTree.file "a.csv", FsTree.dir "sub" [FsTree.file "n.txt"]]⟩
    1000 "s" 5 ⟨DateField.ok 5, DateField.ok 1000, ScopeField.ok "s", 0⟩
    [FsTree.file "a.csv", FsTree.dir "sub" [FsTree.file "n.txt"]]
    (by decide) (by decide) rfl

/-- C2 is falsified on the code at a concrete scan: the first entry has a
valid manifest but no companion `1000.zip`, the second entry is a fully
valid bundle.  The walk aborts on the first entry with the I/O error and
returns the untouched initial state: the second entry - which scanned
alone would be accepted (second and third conjuncts) - is never
processed, contradicting "every other entry in the same scan is still
processed". -/
theorem c2_counterexample :
    scanEntries "tmp" ⟨[], [], []⟩
      [⟨"1000", ".json",
        some ⟨DateField.ok 5, DateField.ok 1000, ScopeField.ok "s", 0⟩, none⟩,
       ⟨"2000", ".json",
        some ⟨DateField.ok 5, DateField.ok 2000, ScopeField.ok "s", 1⟩,
        some [FsTree.file "b.csv"]⟩] =
      (⟨[], [], []⟩, some (ScanError.missingZip "1000")) ∧
    (scanEntries "tmp" ⟨[], [], []⟩
      [⟨"2000", ".json",
        some ⟨DateField.ok 5, DateField.ok 2000, ScopeField.ok "s", 1⟩,
        some [FsTree.file "b.csv"]⟩]).2 = none ∧
    (scanEntries "tmp" ⟨[], [], []⟩
      [⟨"2000", ".json",
        some ⟨DateField.ok 5, DateField.ok 2000, ScopeField.ok "s", 1⟩,
        some [FsTree.file "b.csv"]⟩]).1.mIdx ≠ [] := by decide

/-- C2 (amended): when a validated, not-yet-indexed manifest has no
companion `{timestamp}.zip` beside it, the scanner raises an I/O-class
error that aborts the entire directory walk, not just that entry:
entries after it in the same scan are never processed, state accumulated
before it is kept, the cycle's `finally` cleanup still enqueues the
shutdown sentinel, the sleep is skipped, and the error propagates out of
the cycle. -/
theorem c2_missing_zip_aborts_walk (tmpdir cachePath : String) (mIdx : MIdx)
    (eIdx : EIdx) (pre post : List Entry) (e : Entry) (st1 : ScanState)
    (ts0 : Int) (scope : String) (epochV : Int) (m : ManifestData)
    (hpre : scanEntries tmpdir ⟨mIdx, eIdx, []⟩ pre = (st1, none))
    (hc : classifyEntry e = EntryAction.candidate ts0 scope epochV m)
    (hnew : lookup2 st1.mIdx scope ts0 = none)
    (hzip : e.zip = none) :
    runCycle tmpdir cachePath mIdx eIdx (pre ++ e :: post) =
      ⟨st1.mIdx, st1.eIdx,
       st1.jobs.map (fun j => CItem.file j.1 j.2) ++ [CItem.sentinel],
       none, some (ScanError.missingZip e.stem)⟩ := by
  have hpe : processEntry tmpdir st1 e =
      (st1, some (ScanError.missingZip e.stem)) := by
    simp only [processEntry, hc, hnew, hzip]
  have hscan : scanEntries tmpdir ⟨mIdx, eIdx, []⟩ (pre ++ e :: post) =
      (st1, some (ScanError.missingZip e.stem)) := by
    have h1 : scanEntries tmpdir ⟨mIdx, eIdx, []⟩ (pre ++ e :: post) =
        scanEntries tmpdir st1 (e :: post) := by
      rw [scanEntries_append, hpre]
    rw [h1, scanEntries_cons_some hpe]
  exact runCycle_scan_err hscan

/-- Witness for C2 (amended): the abort observed through a whole cycle at
a concrete input. -/
theorem c2_missing_zip_aborts_walk_witness :
    runCycle "tmp" "c.csv" [] []
      ([] ++ (⟨"1000", ".json",
        some ⟨DateField.ok 5, DateField.ok 1000, ScopeField.ok "s", 0⟩,
        none⟩ : Entry) ::
       [⟨"2000", ".json",
         some ⟨DateField.ok 5, DateField.ok 2000, ScopeField.ok "s", 1⟩,
         some [FsTree.file "b.csv"]⟩]) =
      ⟨[], [], [CItem.sentinel], none, some (ScanError.missingZip "1000")⟩ :=
  c2_missing_zip_aborts_walk "tmp" "c.csv" [] [] []
    [⟨"2000", ".json",
      some ⟨DateField.ok 5, DateField.ok 2000, ScopeField.ok "s", 1⟩,
      some [FsTree.file "b.csv"]⟩]
    ⟨"1000", ".json",
     some ⟨DateField.ok 5, DateField.ok 1000, ScopeField.ok "s", 0⟩, none⟩
    ⟨[], [], []⟩ 1000 "s" 5
    ⟨DateField.ok 5, DateField.ok 1000, ScopeField.ok "s", 0⟩
    rfl (by decide) (by decide) rfl

/-- C8: a worker that dequeues the sentinel immediately re-enqueues it
(it ends up at the back of the queue, where every sibling will observe
it) and returns: it emits no further log record and processes no further
job - the remaining queue items are left untouched for the siblings.
The sentinel is thus never consumed without being re-broadcast, since
this is the only branch of the worker loop that consumes it. -/
theorem c8_sentinel_rebroadcast (bucket : String) (i : Nat)
    (rest : List QItem) :
    upload_to_s3 bucket i (QItem.sentinel :: rest) =
      some ([], rest ++ [QItem.sentinel]) := rfl

/-- C9: when the transfer of a dequeued job raises, the worker emits an
`upload failed` error record carrying the failure context - path, key and
bucket - and behaves on the remaining queue exactly as it would have
without the failing job: no other job is dropped, the worker is not
terminated, and nothing propagates (the worker still terminates normally
whenever the rest of the queue lets it terminate). -/
theorem c9_failure_logged_and_skipped (bucket : String) (i : Nat)
    (p k : String) (rest : List QItem) :
    upload_to_s3 bucket i (QItem.job p k false :: rest) =
      (upload_to_s3 bucket i rest).map
        (fun r => (LogRec.uploadFailed (workerName i) p k bucket :: r.1, r.2)) :=
  rfl

theorem mem_keys_dictInsert {α : Type} {β : Type} [DecidableEq α]
    {a k : α} {v : β} {l : List (α × β)} :
    a ∈ (dictInsert k v l).map Prod.fst ↔ a ∈ l.map Prod.fst ∨ a = k := by
  induction l with
  | nil => simp [dictInsert]
  | cons p rest ih =>
    obtain ⟨k', v'⟩ := p
    by_cases hk : k = k'
    · subst hk
      have hd : dictInsert k v ((k, v') :: rest) = (k, v) :: rest := by
        simp [dictInsert]
      rw [hd]
      simp only [List.map_cons, List.mem_cons]
      tauto
    · simp only [dictInsert, if_neg hk, List.map_cons, List.mem_cons, ih]
      tauto

theorem dictInsert_keys_nodup {α : Type} {β : Type} [DecidableEq α]
    {k : α} {v : β} {l : List (α × β)}
    (h : (l.map Prod.fst).Nodup) : ((dictInsert k v l).map Prod.fst).Nodup := by
  induction l with
  | nil => simp [dictInsert]
  | cons p rest ih =>
    obtain ⟨k', v'⟩ := p
    by_cases hk : k = k'
    · subst hk
      simpa [dictInsert] using h
    · simp only [List.map_cons, List.nodup_cons] at h
      simp only [dictInsert, if_neg hk, List.map_cons, List.nodup_cons]
      refine ⟨?_, ih h.2⟩
      intro hmem
      rcases mem_keys_dictInsert.mp hmem with hin | heq
      · exact h.1 hin
      · exact hk heq.symm

theorem buildListTs_keys_nodup {mIdx : MIdx} {scope : String}
    {acc l : List (String × ManifestData)} {tss : List Int}
    (h : buildListTs mIdx scope acc tss = some l)
    (hacc : (acc.map Prod.fst).Nodup) : (l.map Prod.fst).Nodup := by
  induction tss generalizing acc with
  | nil =>
    simp only [buildListTs, Option.some.injEq] at h
    exact h ▸ hacc
  | cons ts rest ih =>
    simp only [buildListTs] at h
    cases hx : lookup2 mIdx scope ts with
    | none => simp [hx] at h
    | some m =>
      simp only [hx] at h
      exact ih h (dictInsert_keys_nodup hacc)

theorem buildList_keys_nodup {mIdx : MIdx}
    {acc l : List (String × ManifestData)}
    {scopes : List (String × List Int)}
    (h : buildList mIdx acc scopes = some l)
    (hacc : (acc.map Prod.fst).Nodup) : (l.map Prod.fst).Nodup := by
  induction scopes generalizing acc with
  | nil =>
    simp only [buildList, Option.some.injEq] at h
    exact h ▸ hacc
  | cons q rest ih =>
    obtain ⟨scope, tss⟩ := q
    simp only [buildList] at h
    cases hx : buildListTs mIdx scope acc tss with
    | none => simp [hx] at h
    | some acc2 =>
      simp only [hx] at h
      exact ih h (buildListTs_keys_nodup hx hacc)

theorem buildListTs_keys_mono {mIdx : MIdx} {scope : String}
    {acc l : List (String × ManifestData)} {tss : List Int} {k : String}
    (h : buildListTs mIdx scope acc tss = some l)
    (hk : k ∈ acc.map Prod.fst) : k ∈ l.map Prod.fst := by
  induction tss generalizing acc with
  | nil =>
    simp only [buildListTs, Option.some.injEq] at h
    exact h ▸ hk
  | cons ts rest ih =>
    simp only [buildListTs] at h
    cases hx : lookup2 mIdx scope ts with
    | none => simp [hx] at h
    | some m =>
      simp only [hx] at h
      exact ih h (mem_keys_dictInsert.mpr (Or.inl hk))

theorem buildListTs_key_in {mIdx : MIdx} {scope : String}
    {acc l : List (String × ManifestData)} {tss : List Int} {ts : Int}
    (h : buildListTs mIdx scope acc tss = some l) (hts : ts ∈ tss) :
    toString ts ∈ l.map Prod.fst := by
  induction tss generalizing acc with
  | nil => simp at hts
  | cons t rest ih =>
    simp only [buildListTs] at h
    cases hx : lookup2 mIdx scope t with
    | none => simp [hx] at h
    | some m =>
      simp only [hx] at h
      rcases List.mem_cons.mp hts with rfl | hts'
      · exact buildListTs_keys_mono h
          (mem_keys_dictInsert.mpr (Or.inr rfl))
      · exact ih h hts'

theorem buildList_keys_mono {mIdx : MIdx}
    {acc l : List (String × ManifestData)}
    {scopes : List (String × List Int)} {k : String}
    (h : buildList mIdx acc scopes = some l)
    (hk : k ∈ acc.map Prod.fst) : k ∈ l.map Prod.fst := by
  induction scopes generalizing acc with
  | nil =>
    simp only [buildList, Option.some.injEq] at h
    exact h ▸ hk
  | cons q rest ih =>
    obtain ⟨scope, tss⟩ := q
    simp only [buildList] at h
    cases hx : buildListTs mIdx scope acc tss with
    | none => simp [hx] at h
    | some acc2 =>
      simp only [hx] at h
      exact ih h (buildListTs_keys_mono hx hk)

theorem buildList_key_in {mIdx : MIdx}
    {acc l : List (String × ManifestData)}
    {scopes : List (String × List Int)} {s : String} {tss : List Int}
    {ts : Int} (h : buildList mIdx acc scopes = some l)
    (hq : (s, tss) ∈ scopes) (hts : ts ∈ tss) :
    toString ts ∈ l.map Prod.fst := by
  induction scopes generalizing acc with
  | nil => simp at hq
  | cons q rest ih =>
    obtain ⟨scope, tss'⟩ := q
    simp only [buildList] at h
    cases hx : buildListTs mIdx scope acc tss' with
    | none => simp [hx] at h
    | some acc2 =>
      simp only [hx] at h
      rcases List.mem_cons.mp hq with heq | hq'
      · injection heq with h1 h2
        subst h1; subst h2
        exact buildList_keys_mono h (buildListTs_key_in hx hts)
      · exact ih h hq'

theorem buildListTs_mem {mIdx : MIdx} {scope : String}
    {acc l : List (String × ManifestData)} {tss : List Int}
    {p : String × ManifestData}
    (h : buildListTs mIdx scope acc tss = some l) (hp : p ∈ l) :
    p ∈ acc ∨ ∃ t ∈ tss, p.1 = toString t ∧ lookup2 mIdx scope t = some p.2 := by
  induction tss generalizing acc with
  | nil =>
    simp only [buildListTs, Option.some.injEq] at h
    exact Or.inl (h ▸ hp)
  | cons t rest ih =>
    simp only [buildListTs] at h
    cases hx : lookup2 mIdx scope t with
    | none => simp [hx] at h
    | some m =>
      simp only [hx] at h
      rcases ih h with hin | ⟨t', ht', h1, h2⟩
      · rcases dictInsert_mem hin with rfl | hacc
        · exact Or.inr ⟨t, List.mem_cons_self _ _, rfl, by simpa using hx⟩
        · exact Or.inl hacc
      · exact Or.inr ⟨t', List.mem_cons_of_mem _ ht', h1, h2⟩

theorem buildList_mem {mIdx : MIdx}
    {acc l : List (String × ManifestData)}
    {scopes : List (String × List Int)} {p : String × ManifestData}
    (h : buildList mIdx acc scopes = some l) (hp : p ∈ l) :
    p ∈ acc ∨ ∃ q ∈ scopes, ∃ t ∈ q.2,
      p.1 = toString t ∧ lookup2 mIdx q.1 t = some p.2 := by
  induction scopes generalizing acc with
  | nil =>
    simp only [buildList, Option.some.injEq] at h
    exact Or.inl (h ▸ hp)
  | cons q rest ih =>
    obtain ⟨scope, tss⟩ := q
    simp only [buildList] at h
    cases hx : buildListTs mIdx scope acc tss with
    | none => simp [hx] at h
    | some acc2 =>
      simp only [hx] at h
      rcases ih h with hin | ⟨q', hq', t, ht, h1, h2⟩
      · rcases buildListTs_mem hx hin with hacc | ⟨t, ht, h1, h2⟩
        · exact Or.inl hacc
        · exact Or.inr ⟨(scope, tss), List.mem_cons_self _ _, t, ht, h1, h2⟩
      · exact Or.inr ⟨q', List.mem_cons_of_mem _ hq', t, ht, h1, h2⟩

theorem countP_key_eq_one {α : Type} {β : Type} [DecidableEq α] [BEq α]
    [LawfulBEq α] {l : List (α × β)} {k : α}
    (hnd : (l.map Prod.fst).Nodup) (hk : k ∈ l.map Prod.fst) :
    l.countP (fun p => p.1 == k) = 1 := by
  induction l with
  | nil => simp at hk
  | cons p rest ih =>
    obtain ⟨k', v'⟩ := p
    rw [List.map_cons, List.nodup_cons] at hnd
    rw [List.map_cons, List.mem_cons] at hk
    by_cases hkk : k' = k
    · subst hkk
      rw [List.countP_cons]
      have hz : rest.countP (fun p => p.1 == k') = 0 := by
        rw [List.countP_eq_zero]
        intro q hq hbeq
        rw [beq_iff_eq] at hbeq
        have hmm := List.mem_map_of_mem Prod.fst hq
        rw [hbeq] at hmm
        exact hnd.1 hmm
      simp [hz]
    · rcases hk with hk | hk
      · exact absurd hk.symm hkk
      · rw [List.countP_cons]
        have hfalse : ((k', v').1 == k) = false := by
          simp [hkk]
        rw [hfalse]
        simpa using ih hnd.2 hk

/-- C10: when the same bundle timestamp is present under more than one
scope at the maximum observed epoch, the `list.json` document built by
the publish phase contains exactly one binding for that timestamp's
string key - the manifest looked up for one of the scopes containing the
timestamp silently overwrites the other - rather than one entry per
(scope, timestamp) pair.  (The `hinj` hypothesis only records that
distinct integers in the scope sets have distinct decimal renderings,
which is always the case.) -/
theorem c10_duplicate_ts_single_entry (mIdx : MIdx)
    (scopes : List (String × List Int)) (l : List (String × ManifestData))
    (ts : Int) (s1 s2 : String) (tss1 tss2 : List Int)
    (hb : buildList mIdx [] scopes = some l)
    (h1 : (s1, tss1) ∈ scopes) (h2 : (s2, tss2) ∈ scopes) (hne : s1 ≠ s2)
    (ht1 : ts ∈ tss1) (ht2 : ts ∈ tss2)
    (hinj : ∀ q ∈ scopes, ∀ t ∈ q.2, toString t = toString ts → t = ts) :
    l.countP (fun p => p.1 == toString ts) = 1 ∧
    ∃ q ∈ scopes, ts ∈ q.2 ∧
      alookup (toString ts) l = lookup2 mIdx q.1 ts := by
  have hkeys : (l.map Prod.fst).Nodup := buildList_keys_nodup hb (by simp)
  have hkin : toString ts ∈ l.map Prod.fst := buildList_key_in hb h1 ht1
  refine ⟨countP_key_eq_one hkeys hkin, ?_⟩
  obtain ⟨v, hv⟩ := alookup_isSome_of_mem_keys hkin
  have hmem := alookup_mem hv
  rcases buildList_mem hb hmem with hin | ⟨q, hq, t, htq, hkey, hlook⟩
  · simp at hin
  · have hts : t = ts := hinj q hq t htq hkey.symm
    subst hts
    exact ⟨q, hq, htq, by rw [hv, hlook]⟩

/-- Witness for C10: timestamp 1000 present under both scopes "a" and
"b"; the built document has a single binding for key "1000", namely scope
"b"'s manifest (the one processed last), which overwrote scope "a"'s. -/
theorem c10_duplicate_ts_single_entry_witness :
    (List.countP (fun p => p.1 == toString (1000 : Int))
      [("1000", (⟨DateField.ok 5, DateField.ok 1000, ScopeField.ok "b", 3⟩ : ManifestData))]) = 1 ∧
    ∃ q ∈ [("a", [(1000 : Int)]), ("b", [1000])], (1000 : Int) ∈ q.2 ∧
      alookup (toString (1000 : Int))
        [("1000", (⟨DateField.ok 5, DateField.ok 1000, ScopeField.ok "b", 3⟩ : ManifestData))] =
      lookup2
        [("a", [(1000, ⟨DateField.ok 5, DateField.ok 1000, ScopeField.ok "a", 2⟩)]),
         ("b", [(1000, ⟨DateField.ok 5, DateField.ok 1000, ScopeField.ok "b", 3⟩)])]
        q.1 1000 :=
  c10_duplicate_ts_single_entry
    [("a", [(1000, ⟨DateField.ok 5, DateField.ok 1000, ScopeField.ok "a", 2⟩)]),
     ("b", [(1000, ⟨DateField.ok 5, DateField.ok 1000, ScopeField.ok "b", 3⟩)])]
    [("a", [1000]), ("b", [1000])]
    [("1000", ⟨DateField.ok 5, DateField.ok 1000, ScopeField.ok "b", 3⟩)]
    1000 "a" "b" [1000] [1000]
    (by decide) (by decide) (by decide) (by decide) (by decide) (by decide)
    (by decide)
